import Mathlib

/-!
Verification development for the `ghost-gstorage-plugin` storage adapter
(`src/index.js`).  JavaScript strings are embedded as `List Char`; each
regular-expression replacement and each `path` / `mime-types` / WHATWG-URL
library call used by the adapter is modelled by an executable Lean function
on `List Char`, and the adapter's own methods (`_initializeAssetDomain`,
`getTargetDir`, `getFileTypeCategory`, `getUniqueFileName`, `save`,
`urlToPath`) are translated line by line on top of those models.
-/

/-- Character-list strings: the embedding of JavaScript strings. -/
abbrev Str := List Char

/-- JS `s.split("/")`: splits at every `'/'`, keeping empty pieces, so that
`"a//b"` yields `["a", "", "b"]` and `""` yields `[""]`. -/
def splitSlash : Str → List Str
  | [] => [[]]
  | c :: rest =>
    if c = '/' then [] :: splitSlash rest
    else
      match splitSlash rest with
      | [] => [[c]]
      | h :: t => (c :: h) :: t

/-- JS `parts.join("/")`. -/
def joinSlash : List Str → Str
  | [] => []
  | [s] => s
  | s :: rest => s ++ '/' :: joinSlash rest

/-- Worker for `collapseSlashes`; `prevSlash` records whether the previous
kept character was a `'/'` that should absorb following slashes. -/
def collapseGo : Bool → Str → Str
  | _, [] => []
  | prevSlash, c :: rest =>
    if c = '/' then
      if prevSlash then collapseGo true rest
      else '/' :: collapseGo true rest
    else c :: collapseGo false rest

/-- JS `s.replace(/\/+/g, "/")` (and equally `s.replace(/\/{2,}/g, "/")`):
every maximal run of slashes becomes a single slash. -/
def collapseSlashes (s : Str) : Str := collapseGo false s

/-- JS `s.replace(/^\/+/, "")`. -/
def stripLeadingSlashes (s : Str) : Str := s.dropWhile (· = '/')

/-- JS `s.replace(/\/+$/, "")`. -/
def dropTrailingSlashes (s : Str) : Str :=
  (s.reverse.dropWhile (· = '/')).reverse

/-- JS `s.replace(/^\/+|\/+$/g, "")`. -/
def trimSlashes (s : Str) : Str :=
  dropTrailingSlashes (stripLeadingSlashes s)

/-- JS `s.replace(":/", "://")`: only the first occurrence of `":/"` is
rewritten, which is how `save` repairs the scheme after collapsing slashes. -/
def replaceFirstColonSlash : Str → Str
  | [] => []
  | c :: rest =>
    if c = ':' ∧ rest.head? = some '/' then c :: '/' :: rest
    else c :: replaceFirstColonSlash rest

/-- True when the string contains two adjacent slashes. -/
def hasDoubleSlash : Str → Bool
  | [] => false
  | [_] => false
  | a :: b :: rest =>
    if a = '/' ∧ b = '/' then true else hasDoubleSlash (b :: rest)

/-- Lower-casing, modelling JS `s.toLowerCase()` on the ASCII inputs the
adapter deals with. -/
def toLowerStr (s : Str) : Str := s.map Char.toLower

/-- Decimal digit characters. -/
def digitChar : Nat → Char
  | 0 => '0'
  | 1 => '1'
  | 2 => '2'
  | 3 => '3'
  | 4 => '4'
  | 5 => '5'
  | 6 => '6'
  | 7 => '7'
  | 8 => '8'
  | _ => '9'

/-- Fuel-driven decimal printer (structural recursion so that the kernel can
evaluate it inside `decide`). -/
def natToCharsAux : Nat → Nat → Str
  | 0, _ => []
  | fuel + 1, n =>
    if n < 10 then [digitChar n]
    else natToCharsAux fuel (n / 10) ++ [digitChar (n % 10)]

/-- Decimal rendering of a natural number, modelling JS `${n}` for the
non-negative integers produced by `Date.now()` and `getFullYear()`. -/
def natToChars (n : Nat) : Str := natToCharsAux (n + 1) n

/-- Decimal rendering of an integer, modelling JS `${n}` for integral
`maxAge` values. -/
def intToChars (i : Int) : Str :=
  if i < 0 then '-' :: natToChars i.natAbs else natToChars i.toNat

/-- JS `String(m).padStart(2, "0")`. -/
def pad2 (m : Nat) : Str :=
  let s := natToChars m
  if s.length < 2 then List.replicate (2 - s.length) '0' ++ s else s

/-- Model of Node `path.basename(p)` (POSIX rules): trailing slashes are
ignored and the part after the last remaining `'/'` is returned. -/
def basenameChars (p : Str) : Str :=
  (splitSlash (dropTrailingSlashes p)).getLastD []

/-- Model of Node `path.extname(p)`: the suffix of the basename starting at
its last dot, except that a dot in first position, a missing dot, or the
basename `".."` give the empty extension. -/
def extnameChars (p : Str) : Str :=
  let b := basenameChars p
  let tailLen := (b.reverse.takeWhile (· ≠ '.')).length
  if tailLen = b.length then []
  else
    let i := b.length - 1 - tailLen
    if i = 0 then [] else if b = "..".data then [] else b.drop i

/-- Model of Node `path.basename(p, suffix)`: like `basenameChars`, but a
proper suffix equal to `suffix` is removed. -/
def basenameExtChars (p suffix : Str) : Str :=
  let b := basenameChars p
  if suffix ≠ [] ∧ suffix ≠ b ∧ suffix.isSuffixOf b then
    b.take (b.length - suffix.length)
  else b

/-- Stack phase of Node's `normalizeString`: resolves `"."` and `".."`
segments; `allowUp` (true for relative paths) keeps unmatched `".."`s. -/
def normStack (allowUp : Bool) : List Str → List Str → List Str
  | [], acc => acc
  | s :: rest, acc =>
    if s = [] ∨ s = ".".data then normStack allowUp rest acc
    else if s = "..".data then
      match acc with
      | [] => normStack allowUp rest (if allowUp then [s] else [])
      | top :: tl =>
        if top = "..".data then normStack allowUp rest (s :: acc)
        else normStack allowUp rest tl
    else normStack allowUp rest (s :: acc)

/-- Model of Node `path.posix.normalize`, split into the absolute and the
relative case (`isAbsolute` / `trailingSeparator` in the Node source). -/
def posixNormalize (p : Str) : Str :=
  if p = [] then ".".data
  else if p.head? = some '/' then
    let body := joinSlash (normStack false (splitSlash p) []).reverse
    if body = [] then "/".data
    else if p.getLast? = some '/' then '/' :: (body ++ "/".data)
    else '/' :: body
  else
    let body := joinSlash (normStack true (splitSlash p) []).reverse
    if body = [] then
      if p.getLast? = some '/' then "./".data else ".".data
    else if p.getLast? = some '/' then body ++ "/".data
    else body

/-- Model of Node `path.posix.join` on two arguments: concatenation with a
single `'/'` followed by normalization (empty arguments are skipped). -/
def posixJoin2 (a b : Str) : Str :=
  if a = [] ∧ b = [] then ".".data
  else if a = [] then posixNormalize b
  else if b = [] then posixNormalize a
  else posixNormalize (a ++ '/' :: b)

/-- Finite restriction of the `mime-db` table used by the `mime-types`
package: every extension the adapter's classification or the verification
below exercises, with its registered content type. -/
def mimeTypesTable : List (Str × Str) :=
  [("jpg".data, "image/jpeg".data),
   ("jpeg".data, "image/jpeg".data),
   ("png".data, "image/png".data),
   ("gif".data, "image/gif".data),
   ("bmp".data, "image/bmp".data),
   ("webp".data, "image/webp".data),
   ("svg".data, "image/svg+xml".data),
   ("ico".data, "image/vnd.microsoft.icon".data),
   ("mp4".data, "video/mp4".data),
   ("avi".data, "video/x-msvideo".data),
   ("mov".data, "video/quicktime".data),
   ("wmv".data, "video/x-ms-wmv".data),
   ("flv".data, "video/x-flv".data),
   ("webm".data, "video/webm".data),
   ("mkv".data, "video/x-matroska".data),
   ("mp3".data, "audio/mpeg".data),
   ("wav".data, "audio/wav".data),
   ("flac".data, "audio/x-flac".data),
   ("aac".data, "audio/aac".data),
   ("ogg".data, "audio/ogg".data),
   ("m4a".data, "audio/x-m4a".data),
   ("txt".data, "text/plain".data),
   ("pdf".data, "application/pdf".data),
   ("html".data, "text/html".data),
   ("json".data, "application/json".data),
   ("zip".data, "application/zip".data)]

/-- Model of `mime.lookup(p)` from the `mime-types` package: the lowercased
extension of `"x." ++ p` (so bare extensions also resolve) is looked up in
the table; `none` models the JS return value `false`. -/
def mimeLookup (p : Str) : Option Str :=
  match toLowerStr (extnameChars ('x' :: '.' :: p)) with
  | [] => none
  | _ :: tl =>
    if tl = [] then none
    else (mimeTypesTable.find? (fun kv => kv.1 == tl)).map (·.2)

/-- The WHATWG-URL pieces the adapter reads off `new URL(s)`. -/
structure UrlParts where
  protocol : Str
  host : Str
  pathname : Str
deriving Repr, DecidableEq

/-- Characters this model accepts in a URL host: the WHATWG parser maps
such hosts through unchanged. -/
def hostChar (c : Char) : Bool :=
  c.isLower ∨ c.isDigit ∨ c = '.' ∨ c = '-'

/-- Characters this model accepts in a URL path: the WHATWG parser neither
percent-encodes nor rewrites them. -/
def pathChar (c : Char) : Bool :=
  c.isAlphanum ∨ c = '/' ∨ c = '.' ∨ c = '-' ∨ c = '_' ∨ c = '~'

/-- Authority/path split shared by both schemes of `urlParse`. -/
def urlParseAux (proto rest : Str) : Option UrlParts :=
  let host := rest.takeWhile (· ≠ '/')
  let path := rest.drop host.length
  if host = [] ∨ ¬ host.all hostChar ∨ ¬ path.all pathChar then none
  else some ⟨proto, host, if path = [] then "/".data else path⟩

/-- Model of `new URL(s)` restricted to plain `http(s)` URLs whose host and
path consist of characters the WHATWG algorithm passes through verbatim;
`none` models a thrown `TypeError` or an input outside the modelled
fragment. -/
def urlParse (s : Str) : Option UrlParts :=
  if toLowerStr (s.take 8) = "https://".data then urlParseAux "https:".data (s.drop 8)
  else if toLowerStr (s.take 7) = "http://".data then urlParseAux "http:".data (s.drop 7)
  else none

/-- Test of the guard regex `/^https?:\/\//i` from `_initializeAssetDomain`. -/
def httpRegexTest (s : Str) : Bool :=
  toLowerStr (s.take 7) = "http://".data ∨ toLowerStr (s.take 8) = "https://".data

/-- JS value accepted for the `maxAge` configuration key, distinguishing the
cases `typeof maxAge === "number"` can see. -/
inductive JsMaxAge where
  | absent : JsMaxAge
  | num : Int → JsMaxAge
  | str : Str → JsMaxAge
deriving Repr, DecidableEq

/-- Adapter configuration (`config` in the constructor); empty strings model
absent string-valued keys, mirroring JS falsiness. -/
structure GConfig where
  bucket : Str := []
  assetDomain : Option Str := none
  insecure : Bool := false
  basePath : Str := []
  uploadFolderPath : Str := []
  maxAge : JsMaxAge := .absent
deriving Repr, DecidableEq

/-- Derived domain state: the `this.assetDomain` / `this.basePath` fields
set by `_initializeAssetDomain`. -/
structure ResolvedState where
  assetDomain : Str
  basePath : Str
deriving Repr, DecidableEq

/-- Uploaded-file descriptor (`file` in `save`); empty strings model absent
fields, mirroring JS falsiness. -/
structure FileDesc where
  name : Str := []
  path : Str := []
  type : Str := []
deriving Repr, DecidableEq

/-- Constructor line `this.maxAge = typeof maxAge === "number" ? maxAge :
2678400`. -/
def resolveMaxAge : JsMaxAge → Int
  | .num n => n
  | _ => 2678400

/-- Branch of `_initializeAssetDomain` taken when no custom domain applies:
the default `storage.googleapis.com` domain with the configured base path. -/
def defaultDomain (cfg : GConfig) : ResolvedState :=
  { assetDomain :=
      (if cfg.insecure then "http://".data else "https://".data) ++
        cfg.bucket ++ ".storage.googleapis.com".data,
    basePath := cfg.basePath }

/-- Model of `_initializeAssetDomain`: computes the resolved asset domain
and base path from the configuration (`urlParse = none` plays the role of
the `catch` branch). -/
def initDomainStep (cfg : GConfig) : ResolvedState :=
  match cfg.assetDomain with
  | some a =>
    if a ≠ [] ∧ httpRegexTest a then
      match urlParse a with
      | some u =>
        let segments := (splitSlash u.pathname).filter (fun s => s ≠ [])
        let segments :=
          if segments.head? = some cfg.bucket then segments.tail else segments
        { assetDomain := u.protocol ++ "//".data ++ u.host ++ '/' :: cfg.bucket,
          basePath := joinSlash segments }
      | none =>
        { assetDomain := dropTrailingSlashes a, basePath := cfg.basePath }
    else defaultDomain cfg
  | none => defaultDomain cfg

/-- Last line of `_initializeAssetDomain`: `if (this.basePath) this.basePath
= this.basePath.replace(/^\/+|\/+$/g, "")`. -/
def finalizeBasePath (bp : Str) : Str :=
  if bp ≠ [] then trimSlashes bp else bp

def initAssetDomain (cfg : GConfig) : ResolvedState :=
  { assetDomain := (initDomainStep cfg).assetDomain,
    basePath := finalizeBasePath
      (if cfg.uploadFolderPath ≠ [] then cfg.uploadFolderPath
        else (initDomainStep cfg).basePath) }

/-- Model of `getTargetDir()`: `"YYYY/MM"` from the wall clock; `year` and
`month` stand for `getFullYear()` and the 1-based `getMonth() + 1`. -/
def getTargetDir (year month : Nat) : Str :=
  natToChars year ++ '/' :: pad2 month

/-- File-name derivation shared by `getFileTypeCategory` and
`getUniqueFileName`: `file.name || (file.path && basename(file.path)) ||
"file"`. -/
def deriveFileName (f : FileDesc) : Str :=
  if f.name ≠ [] then f.name
  else if f.path ≠ [] ∧ basenameChars f.path ≠ [] then basenameChars f.path
  else "file".data

/-- MIME-type derivation in `getFileTypeCategory`: a lookup keyed on the
path (else the name) wins, the declared `file.type` is the fallback. -/
def deriveMimeType (f : FileDesc) : Str :=
  if f.path ≠ [] then (mimeLookup f.path).getD f.type
  else if f.name ≠ [] then (mimeLookup f.name).getD f.type
  else f.type

/-- The `imageExtensions` list of `getFileTypeCategory`. -/
def imageExtensions : List Str :=
  [".jpg".data, ".jpeg".data, ".png".data, ".gif".data, ".bmp".data,
   ".webp".data, ".svg".data, ".ico".data]

/-- The `mediaExtensions` list of `getFileTypeCategory`. -/
def mediaExtensions : List Str :=
  [".mp4".data, ".avi".data, ".mov".data, ".wmv".data, ".flv".data,
   ".webm".data, ".mkv".data, ".mp3".data, ".wav".data, ".flac".data,
   ".aac".data, ".ogg".data, ".m4a".data]

/-- Model of `getFileTypeCategory(file)`. -/
def getFileTypeCategory (f : FileDesc) : Str :=
  let fileName := deriveFileName f
  let ext := toLowerStr (extnameChars fileName)
  let mimeType := deriveMimeType f
  if ext ∈ imageExtensions ∨ List.isPrefixOf "image/".data mimeType then
    "images".data
  else if ext ∈ mediaExtensions ∨ List.isPrefixOf "video/".data mimeType ∨
      List.isPrefixOf "audio/".data mimeType then
    "media".data
  else "files".data

/-- Sanitization step of `getUniqueFileName`:
`baseName.replace(/[\/\\]/g, "_")`. -/
def sanitizeChar (c : Char) : Char :=
  if c = '/' ∨ c = '\\' then '_' else c

/-- The `baseName || "file"` value of `getUniqueFileName`. -/
def fileBaseName (f : FileDesc) : Str :=
  let originalName := deriveFileName f
  let b := basenameExtChars originalName (extnameChars originalName)
  if b = [] then "file".data else b

/-- The `uniqueName` template of `getUniqueFileName`:
`safeBaseName-<Date.now()><ext>`; `now` stands for `Date.now()`. -/
def uniqueNamePart (f : FileDesc) (now : Nat) : Str :=
  (fileBaseName f).map sanitizeChar ++ '-' :: (natToChars now ++ extnameChars (deriveFileName f))

/-- Model of `getUniqueFileName(file, targetDir)`. -/
def getUniqueFileName (f : FileDesc) (targetDir : Str) (now : Nat) : Str :=
  posixJoin2 targetDir (uniqueNamePart f now)

/-- The `targetDir` computed inside `save`, backslashes already normalized
to forward slashes. -/
def saveTargetDir (st : ResolvedState) (f : FileDesc) (year month : Nat) : Str :=
  (if st.basePath ≠ [] then
      st.basePath ++ '/' :: (getFileTypeCategory f ++ '/' :: getTargetDir year month)
    else getFileTypeCategory f ++ '/' :: getTargetDir year month).map
    (fun c => if c = '\\' then '/' else c)

/-- The `storageKey` computed inside `save`. -/
def saveStorageKey (st : ResolvedState) (f : FileDesc) (year month now : Nat) : Str :=
  getUniqueFileName f (saveTargetDir st f year month) now

/-- The public URL returned by `save`: domain and key joined, slash runs
collapsed, scheme separator restored. -/
def savePublicUrl (st : ResolvedState) (storageKey : Str) : Str :=
  replaceFirstColonSlash
    (collapseSlashes (dropTrailingSlashes st.assetDomain ++ '/' :: storageKey))

/-- The `contentType` metadata computed inside `save`. -/
def saveContentType (f : FileDesc) : Str :=
  (mimeLookup f.path).getD
    (if f.type ≠ [] then f.type else "application/octet-stream".data)

/-- One call to `bucket.upload(file.path, opts)` with the options `save`
builds. -/
structure UploadCall where
  localPath : Str
  destination : Str
  cacheControl : Str
  contentType : Str
  isPublic : Bool
deriving Repr, DecidableEq

/-- The two error exits of `save`, named after the spec's taxonomy; they
carry the messages `"Google Cloud Storage is not configured."` and
`"File object with a valid path is required."`. -/
inductive SaveError where
  | configurationError : SaveError
  | invalidInputError : SaveError
deriving Repr, DecidableEq

/-- Model of `save(file)`: the list records every upload call issued to the
object-store collaborator, the second component is the returned URL or the
thrown error; `opts = none` models an unconfigured adapter, `file = none` a
missing file object. -/
def save (opts : Option GConfig) (file : Option FileDesc)
    (year month now : Nat) : List UploadCall × Except SaveError Str :=
  match opts with
  | none => ([], .error .configurationError)
  | some cfg =>
    match file with
    | none => ([], .error .invalidInputError)
    | some f =>
      if f.path = [] then ([], .error .invalidInputError)
      else
        let st := initAssetDomain cfg
        let storageKey := saveStorageKey st f year month now
        let call : UploadCall :=
          { localPath := f.path,
            destination := storageKey,
            cacheControl := "public, max-age=".data ++ intToChars (resolveMaxAge cfg.maxAge),
            contentType := saveContentType f,
            isPublic := true }
        ([call], .ok (savePublicUrl st storageKey))

/-- Test-and-strip of the regex `^https?://[^/]*googleapis\.com/<bucket>/`
built inside `urlToPath`: on a match, returns the remainder after the
matched prefix (what `url.replace(bucketPattern, "")` yields). -/
def bucketPatternMatch (bucket u : Str) : Option Str :=
  let afterScheme? : Option Str :=
    if List.isPrefixOf "https://".data u then some (u.drop 8)
    else if List.isPrefixOf "http://".data u then some (u.drop 7)
    else none
  match afterScheme? with
  | none => none
  | some rest =>
    let h := rest.takeWhile (· ≠ '/')
    let t := rest.drop h.length
    if List.isSuffixOf "googleapis.com".data h ∧
        List.isPrefixOf ('/' :: bucket ++ "/".data) t then
      some (t.drop (bucket.length + 2))
    else none

/-- The `try` body of `urlToPath` on a non-empty string; `none` models a
thrown exception (in this fragment, only `new URL(url)` can throw). -/
def urlToPathTry (st : ResolvedState) (bucket : Str) (u : Str) : Option Str :=
  let filePath? : Option Str :=
    if List.isPrefixOf st.assetDomain u then some (u.drop st.assetDomain.length)
    else
      match bucketPatternMatch bucket u with
      | some rest => some rest
      | none =>
        match urlParse u with
        | some parts =>
          let fp := parts.pathname
          some (if List.isPrefixOf ('/' :: bucket ++ "/".data) fp then
              fp.drop (bucket.length + 2)
            else fp)
        | none => none
  filePath?.map (fun fp => collapseSlashes (stripLeadingSlashes fp))

/-- The fallback `parts[parts.length - 1] || ""` of `urlToPath`'s `catch`. -/
def lastSegment (u : Str) : Str := (splitSlash u).getLastD []

/-- Model of `urlToPath(url)`; `url = none` models a non-string argument. -/
def urlToPath (st : ResolvedState) (bucket : Str) (url : Option Str) : Str :=
  match url with
  | none => []
  | some u =>
    if u = [] then []
    else
      match urlToPathTry st bucket u with
      | some p => p
      | none => lastSegment u

/-! Helper lemmas about the string primitives. -/

theorem splitSlash_ne_nil (s : Str) : splitSlash s ≠ [] := by
  induction s with
  | nil => simp [splitSlash]
  | cons c rest ih =>
    simp only [splitSlash]
    split
    · simp
    · cases h : splitSlash rest with
      | nil => simp
      | cons a t => simp

theorem splitSlash_no_slash {x : Str} (h : '/' ∉ x) : splitSlash x = [x] := by
  induction x with
  | nil => rfl
  | cons c rest ih =>
    have hc : c ≠ '/' := fun hc => h (hc ▸ List.mem_cons_self c rest)
    have ht := ih (fun hm => h (List.mem_cons_of_mem c hm))
    simp only [splitSlash, if_neg hc, ht]

theorem splitSlash_append {x r : Str} (h : '/' ∉ x) :
    splitSlash (x ++ '/' :: r) = x :: splitSlash r := by
  induction x with
  | nil => simp [splitSlash]
  | cons c rest ih =>
    have hc : c ≠ '/' := fun hc => h (hc ▸ List.mem_cons_self c rest)
    have ht := ih (fun hm => h (List.mem_cons_of_mem c hm))
    simp only [List.cons_append, splitSlash, if_neg hc, List.append_eq, ht]

theorem mem_splitSlash_no_slash {s e : Str} (he : e ∈ splitSlash s) : '/' ∉ e := by
  induction s generalizing e with
  | nil =>
    simp [splitSlash] at he
    simp [he]
  | cons c rest ih =>
    by_cases hc : c = '/'
    · subst hc
      simp only [splitSlash, if_true, List.mem_cons] at he
      rcases he with he | he
      · simp [he]
      · exact ih he
    · simp only [splitSlash, if_neg hc] at he
      cases hsp : splitSlash rest with
      | nil => exact absurd hsp (splitSlash_ne_nil rest)
      | cons a t =>
        rw [hsp] at he
        rcases List.mem_cons.mp he with he | he
        · subst he
          intro hm
          rcases List.mem_cons.mp hm with h1 | h1
          · exact hc h1.symm
          · exact ih (hsp ▸ List.mem_cons_self a t) h1
        · exact ih (by rw [hsp]; exact List.mem_cons_of_mem a he)

theorem mem_of_mem_splitSlash {s e : Str} {c : Char} (he : e ∈ splitSlash s)
    (hc : c ∈ e) : c ∈ s := by
  induction s generalizing e with
  | nil =>
    simp [splitSlash] at he
    subst he
    exact absurd hc (List.not_mem_nil c)
  | cons d rest ih =>
    by_cases hd : d = '/'
    · subst hd
      simp only [splitSlash, if_true, List.mem_cons] at he
      rcases he with he | he
      · subst he
        exact absurd hc (List.not_mem_nil c)
      · exact List.mem_cons_of_mem _ (ih he hc)
    · simp only [splitSlash, if_neg hd] at he
      cases hsp : splitSlash rest with
      | nil => exact absurd hsp (splitSlash_ne_nil rest)
      | cons a t =>
        rw [hsp] at he
        rcases List.mem_cons.mp he with he | he
        · subst he
          rcases List.mem_cons.mp hc with h1 | h1
          · exact h1 ▸ List.mem_cons_self d rest
          · exact List.mem_cons_of_mem _ (ih (hsp ▸ List.mem_cons_self a t) h1)
        · exact List.mem_cons_of_mem _ (ih (hsp ▸ List.mem_cons_of_mem a he) hc)

theorem joinSlash_cons (a : Str) {L : List Str} (h : L ≠ []) :
    joinSlash (a :: L) = a ++ '/' :: joinSlash L := by
  cases L with
  | nil => exact absurd rfl h
  | cons b t => rfl

theorem joinSlash_ne_nil {L : List Str} (hL : L ≠ []) (h : ∀ e ∈ L, e ≠ []) :
    joinSlash L ≠ [] := by
  cases L with
  | nil => exact absurd rfl hL
  | cons a t =>
    cases t with
    | nil => exact h a (List.mem_cons_self a [])
    | cons b t' =>
      rw [joinSlash_cons a (by simp)]
      cases hx : a with
      | nil => exact absurd rfl (hx ▸ h a (List.mem_cons_self a _))
      | cons c u => simp

theorem joinSlash_append {A B : List Str} (hA : A ≠ []) (hB : B ≠ []) :
    joinSlash (A ++ B) = joinSlash A ++ '/' :: joinSlash B := by
  induction A with
  | nil => exact absurd rfl hA
  | cons a A' ih =>
    cases A' with
    | nil => simp [joinSlash_cons a hB, joinSlash]
    | cons b t =>
      rw [List.cons_append, @joinSlash_cons a ((b :: t) ++ B) (by simp),
        @joinSlash_cons a (b :: t) (by simp), ih (by simp)]
      simp

theorem splitSlash_joinSlash {L : List Str} (hL : L ≠ []) (h : ∀ e ∈ L, '/' ∉ e) :
    splitSlash (joinSlash L) = L := by
  induction L with
  | nil => exact absurd rfl hL
  | cons a L' ih =>
    cases L' with
    | nil => exact splitSlash_no_slash (h a (by simp))
    | cons b t =>
      rw [joinSlash_cons a (by simp), splitSlash_append (h a (by simp)),
        ih (by simp) (fun e he => h e (List.mem_cons_of_mem a he))]

theorem mem_joinSlash {L : List Str} {c : Char} (hc : c ∈ joinSlash L) :
    c = '/' ∨ ∃ e ∈ L, c ∈ e := by
  induction L with
  | nil => exact absurd hc (List.not_mem_nil c)
  | cons a L' ih =>
    cases L' with
    | nil =>
      right
      exact ⟨a, List.mem_cons_self a [], hc⟩
    | cons b t =>
      rw [joinSlash_cons a (by simp)] at hc
      rcases List.mem_append.mp hc with h1 | h1
      · exact Or.inr ⟨a, List.mem_cons_self a _, h1⟩
      · rcases List.mem_cons.mp h1 with h2 | h2
        · exact Or.inl h2
        · rcases ih h2 with h3 | ⟨e, he, hce⟩
          · exact Or.inl h3
          · exact Or.inr ⟨e, List.mem_cons_of_mem a he, hce⟩

theorem joinSlash_head? {a : Str} {L : List Str} (ha : a ≠ []) :
    (joinSlash (a :: L)).head? = a.head? := by
  cases L with
  | nil => rfl
  | cons b t =>
    rw [joinSlash_cons a (by simp)]
    exact List.head?_append_of_ne_nil _ ha

theorem joinSlash_getLast_ne_slash {L : List Str} (h1 : ∀ e ∈ L, e ≠ [])
    (h2 : ∀ e ∈ L, '/' ∉ e) : (joinSlash L).getLast? ≠ some '/' := by
  induction L with
  | nil => simp [joinSlash]
  | cons a L' ih =>
    cases L' with
    | nil =>
      simp only [joinSlash]
      intro hc
      exact h2 a (List.mem_cons_self a []) (List.mem_of_mem_getLast? hc)
    | cons b t =>
      have hrest1 : ∀ e ∈ b :: t, e ≠ [] := fun e he => h1 e (List.mem_cons_of_mem a he)
      have hrest2 : ∀ e ∈ b :: t, '/' ∉ e := fun e he => h2 e (List.mem_cons_of_mem a he)
      have hne : joinSlash (b :: t) ≠ [] := joinSlash_ne_nil (by simp) hrest1
      rw [joinSlash_cons a (by simp),
        List.getLast?_append_of_ne_nil _ (by simp),
        show ('/' :: joinSlash (b :: t)) = ['/'] ++ joinSlash (b :: t) from rfl,
        List.getLast?_append_of_ne_nil _ hne]
      exact ih hrest1 hrest2

theorem hasDoubleSlash_cons_cons {a b : Char} {r : Str} (h : ¬(a = '/' ∧ b = '/')) :
    hasDoubleSlash (a :: b :: r) = hasDoubleSlash (b :: r) := by
  simp only [hasDoubleSlash, if_neg h]

theorem hasDoubleSlash_tail {c : Char} {r : Str} (h : hasDoubleSlash (c :: r) = false) :
    hasDoubleSlash r = false := by
  cases r with
  | nil => rfl
  | cons b t =>
    simp only [hasDoubleSlash] at h
    split at h
    · exact absurd h (by simp)
    · exact h

theorem noSlash_hasDouble {s : Str} (h : '/' ∉ s) : hasDoubleSlash s = false := by
  induction s with
  | nil => rfl
  | cons c rest ih =>
    cases rest with
    | nil => rfl
    | cons b t =>
      have hc : c ≠ '/' := fun x => h (x ▸ List.mem_cons_self c _)
      rw [hasDoubleSlash_cons_cons (fun hp => hc hp.1)]
      exact ih (fun hm => h (List.mem_cons_of_mem c hm))

theorem hasDouble_append_left {a r : Str} (h : '/' ∉ a) :
    hasDoubleSlash (a ++ r) = hasDoubleSlash r := by
  induction a with
  | nil => rfl
  | cons c a' ih =>
    have hc : c ≠ '/' := fun x => h (x ▸ List.mem_cons_self c _)
    have ih' := ih (fun hm => h (List.mem_cons_of_mem c hm))
    cases ha : a' ++ r with
    | nil =>
      rcases List.append_eq_nil.mp ha with ⟨h1, h2⟩
      subst h1
      subst h2
      rfl
    | cons b t =>
      rw [List.cons_append, ha, hasDoubleSlash_cons_cons (fun hp => hc hp.1), ← ha, ih']

theorem hasDouble_middle {a b : Str} (ha : hasDoubleSlash a = false)
    (hb : hasDoubleSlash b = false) (hlast : a.getLast? ≠ some '/')
    (hhead : b.head? ≠ some '/') : hasDoubleSlash (a ++ '/' :: b) = false := by
  induction a with
  | nil =>
    cases b with
    | nil => rfl
    | cons x t =>
      have hx : x ≠ '/' := fun hxx => hhead (by simp [hxx])
      rw [List.nil_append, hasDoubleSlash_cons_cons (fun hp => hx hp.2)]
      exact hb
  | cons c a' ih =>
    cases a' with
    | nil =>
      have hc : c ≠ '/' := fun hcc => hlast (by simp [hcc])
      rw [List.cons_append, List.nil_append,
        hasDoubleSlash_cons_cons (fun hp => hc hp.1)]
      cases b with
      | nil => rfl
      | cons x t =>
        have hx : x ≠ '/' := fun hxx => hhead (by simp [hxx])
        rw [hasDoubleSlash_cons_cons (fun hp => hx hp.2)]
        exact hb
    | cons d a'' =>
      have h3 : ¬(c = '/' ∧ d = '/') := by
        intro hp
        simp [hasDoubleSlash, hp.1, hp.2] at ha
      have hlast' : (d :: a'').getLast? ≠ some '/' := by
        intro hx
        exact hlast (by
          rw [show (c :: d :: a'') = [c] ++ d :: a'' from rfl,
            List.getLast?_append_of_ne_nil _ (by simp)]
          exact hx)
      rw [List.cons_append, List.cons_append, hasDoubleSlash_cons_cons h3,
        ← List.cons_append]
      exact ih (hasDoubleSlash_tail ha) hlast'

theorem collapseGo_true_of_head {s : Str} (h : s.head? ≠ some '/') :
    collapseGo true s = collapseGo false s := by
  cases s with
  | nil => rfl
  | cons c t =>
    have hc : c ≠ '/' := fun x => h (by simp [x])
    simp only [collapseGo, if_neg hc]

theorem collapseGo_no_double {s : Str} (h : hasDoubleSlash s = false) :
    collapseGo false s = s := by
  induction s with
  | nil => rfl
  | cons c rest ih =>
    by_cases hc : c = '/'
    · subst hc
      have hrest : rest.head? ≠ some '/' := by
        cases rest with
        | nil => simp
        | cons b t =>
          intro hx
          have hb : b = '/' := by simpa using hx
          subst hb
          simp [hasDoubleSlash] at h
      rw [show collapseGo false ('/' :: rest) = '/' :: collapseGo true rest from rfl,
        collapseGo_true_of_head hrest, ih (hasDoubleSlash_tail h)]
    · have ht := ih (hasDoubleSlash_tail h)
      simp only [collapseGo, if_neg hc, ht]

theorem collapseGo_append_noslash {a r : Str} (h : '/' ∉ a) :
    collapseGo false (a ++ r) = a ++ collapseGo false r := by
  induction a with
  | nil => rfl
  | cons c a' ih =>
    have hc : c ≠ '/' := fun x => h (x ▸ List.mem_cons_self c _)
    simp only [List.cons_append, collapseGo, if_neg hc, List.append_eq,
      ih (fun hm => h (List.mem_cons_of_mem c hm))]

theorem replaceFirst_no_colon {a r : Str} (h : ':' ∉ a) :
    replaceFirstColonSlash (a ++ ':' :: '/' :: r) = a ++ ':' :: '/' :: '/' :: r := by
  induction a with
  | nil => simp [replaceFirstColonSlash]
  | cons c a' ih =>
    have hc : c ≠ ':' := fun x => h (x ▸ List.mem_cons_self c _)
    have hcond : ¬(c = ':' ∧ (a' ++ ':' :: '/' :: r).head? = some '/') :=
      fun hp => hc hp.1
    simp only [List.cons_append, replaceFirstColonSlash, List.append_eq,
      if_neg hcond, ih (fun hm => h (List.mem_cons_of_mem c hm))]

theorem dropWhile_slash_of_head {s : Str} (h : s.head? ≠ some '/') :
    s.dropWhile (· = '/') = s := by
  cases s with
  | nil => rfl
  | cons c t =>
    have hc : c ≠ '/' := fun x => h (by simp [x])
    simp [List.dropWhile_cons, hc]

theorem head?_dropWhile_slash (s : Str) :
    (s.dropWhile (· = '/')).head? ≠ some '/' := by
  induction s with
  | nil => simp
  | cons c t ih =>
    by_cases hc : c = '/'
    · simpa [List.dropWhile_cons, hc] using ih
    · simp [List.dropWhile_cons, hc]

theorem dropTrailingSlashes_getLast (s : Str) :
    (dropTrailingSlashes s).getLast? ≠ some '/' := by
  unfold dropTrailingSlashes
  rw [List.getLast?_reverse]
  exact head?_dropWhile_slash _

theorem dropTrailingSlashes_prefix_self (s : Str) : dropTrailingSlashes s <+: s := by
  unfold dropTrailingSlashes
  have hsuffix : s.reverse.dropWhile (· = '/') <:+ s.reverse :=
    List.dropWhile_suffix _
  have := List.reverse_prefix.mpr hsuffix
  rwa [List.reverse_reverse] at this

theorem dropTrailingSlashes_of_getLast {s : Str} (h : s.getLast? ≠ some '/') :
    dropTrailingSlashes s = s := by
  unfold dropTrailingSlashes
  rw [dropWhile_slash_of_head (by rwa [List.head?_reverse]), List.reverse_reverse]

theorem head?_of_prefix_ne_nil {t s : Str} (h : t <+: s) (ht : t ≠ []) :
    t.head? = s.head? := by
  rcases h with ⟨r, rfl⟩
  cases t with
  | nil => exact absurd rfl ht
  | cons c u => rfl

theorem trimSlashes_head (s : Str) : (trimSlashes s).head? ≠ some '/' := by
  unfold trimSlashes
  by_cases h : dropTrailingSlashes (stripLeadingSlashes s) = []
  · simp [h]
  · rw [head?_of_prefix_ne_nil (dropTrailingSlashes_prefix_self _) h]
    exact head?_dropWhile_slash s

theorem trimSlashes_getLast (s : Str) : (trimSlashes s).getLast? ≠ some '/' :=
  dropTrailingSlashes_getLast _

theorem digitChar_isDigit (d : Nat) : (digitChar d).isDigit = true := by
  match d with
  | 0 | 1 | 2 | 3 | 4 | 5 | 6 | 7 | 8 => rfl
  | n + 9 => rfl

theorem natToCharsAux_digits {fuel n : Nat} {c : Char}
    (h : c ∈ natToCharsAux fuel n) : c.isDigit = true := by
  induction fuel generalizing n with
  | zero => exact absurd h (List.not_mem_nil c)
  | succ f ih =>
    simp only [natToCharsAux] at h
    split at h
    · rcases List.mem_singleton.mp h with rfl
      exact digitChar_isDigit n
    · rcases List.mem_append.mp h with h1 | h1
      · exact ih h1
      · rcases List.mem_singleton.mp h1 with rfl
        exact digitChar_isDigit _

theorem natToChars_digits {n : Nat} {c : Char} (h : c ∈ natToChars n) :
    c.isDigit = true :=
  natToCharsAux_digits h

theorem natToChars_ne_nil (n : Nat) : natToChars n ≠ [] := by
  unfold natToChars natToCharsAux
  split <;> simp

theorem isDigit_ne_special {c : Char} (h : c.isDigit = true) :
    c ≠ '/' ∧ c ≠ '\\' ∧ c ≠ '.' ∧ c ≠ ':' := by
  refine ⟨?_, ?_, ?_, ?_⟩ <;> rintro rfl <;> exact absurd h (by decide)

theorem pad2_digits {m : Nat} {c : Char} (h : c ∈ pad2 m) : c.isDigit = true := by
  simp only [pad2] at h
  split at h
  · rcases List.mem_append.mp h with h1 | h1
    · rw [List.eq_of_mem_replicate h1]
      rfl
    · exact natToChars_digits h1
  · exact natToChars_digits h

theorem pad2_ne_nil (m : Nat) : pad2 m ≠ [] := by
  simp only [pad2]
  split
  · simp [natToChars_ne_nil m]
  · exact natToChars_ne_nil m

theorem digitStr_good {s : Str} (hne : s ≠ [])
    (hd : ∀ c ∈ s, c.isDigit = true) :
    '/' ∉ s ∧ '\\' ∉ s ∧ s ≠ ".".data ∧ s ≠ "..".data := by
  refine ⟨?_, ?_, ?_, ?_⟩
  · intro hm
    exact absurd (hd _ hm) (by decide)
  · intro hm
    exact absurd (hd _ hm) (by decide)
  · intro hs
    subst hs
    exact absurd (hd '.' (by decide)) (by decide)
  · intro hs
    subst hs
    exact absurd (hd '.' (by decide)) (by decide)

theorem normStack_good {allowUp : Bool} {l : List Str} (acc : List Str)
    (h : ∀ s ∈ l, s ≠ [] ∧ s ≠ ".".data ∧ s ≠ "..".data) :
    normStack allowUp l acc = l.reverse ++ acc := by
  induction l generalizing acc with
  | nil => simp [normStack]
  | cons s rest ih =>
    obtain ⟨h1, h2, h3⟩ := h s (List.mem_cons_self s rest)
    have hcond : ¬(s = [] ∨ s = ".".data) := by
      rintro (hx | hx)
      exacts [h1 hx, h2 hx]
    simp only [normStack, if_neg hcond, if_neg h3]
    rw [ih (s :: acc) (fun e he => h e (List.mem_cons_of_mem s he))]
    simp

theorem normStack_elems {allowUp : Bool} {l : List Str} (acc : List Str)
    (hacc : ∀ e ∈ acc, e ≠ [] ∧ '/' ∉ e) (hl : ∀ e ∈ l, '/' ∉ e) :
    ∀ e ∈ normStack allowUp l acc, e ≠ [] ∧ '/' ∉ e := by
  induction l generalizing acc with
  | nil =>
    intro e he
    exact hacc e (by simpa [normStack] using he)
  | cons s rest ih =>
    intro e he
    have hlrest : ∀ x ∈ rest, '/' ∉ x := fun x hx => hl x (List.mem_cons_of_mem s hx)
    by_cases h1 : s = [] ∨ s = ".".data
    · simp only [normStack, if_pos h1] at he
      exact ih acc hacc hlrest e he
    · by_cases h2 : s = "..".data
      · simp only [normStack, if_neg h1, if_pos h2] at he
        cases acc with
        | nil =>
          refine ih _ ?_ hlrest e he
          intro x hx
          split at hx
          · rcases List.mem_singleton.mp hx with rfl
            rw [h2]
            exact ⟨by decide, by decide⟩
          · exact absurd hx (List.not_mem_nil x)
        | cons top tl =>
          by_cases h3 : top = "..".data
          · simp only [if_pos h3] at he
            refine ih _ ?_ hlrest e he
            intro x hx
            rcases List.mem_cons.mp hx with rfl | hx
            · rw [h2]
              exact ⟨by decide, by decide⟩
            · exact hacc x hx
          · simp only [if_neg h3] at he
            exact ih _ (fun x hx => hacc x (List.mem_cons_of_mem top hx)) hlrest e he
      · simp only [normStack, if_neg h1, if_neg h2] at he
        refine ih _ ?_ hlrest e he
        intro x hx
        rcases List.mem_cons.mp hx with hx | hx
        · subst hx
          exact ⟨fun hx2 => h1 (Or.inl hx2), hl _ (List.mem_cons_self _ rest)⟩
        · exact hacc x hx

theorem joinSlash_no_double {L : List Str} (h : ∀ e ∈ L, e ≠ [] ∧ '/' ∉ e) :
    hasDoubleSlash (joinSlash L) = false := by
  induction L with
  | nil => rfl
  | cons a L' ih =>
    cases L' with
    | nil => exact noSlash_hasDouble (h a (List.mem_cons_self a [])).2
    | cons b t =>
      rw [joinSlash_cons a (by simp)]
      refine hasDouble_middle (noSlash_hasDouble (h a (List.mem_cons_self a _)).2)
        (ih (fun e he => h e (List.mem_cons_of_mem a he))) ?_ ?_
      · intro hx
        exact (h a (List.mem_cons_self a _)).2 (List.mem_of_mem_getLast? hx)
      · rw [joinSlash_head? (h b (by simp)).1]
        intro hx
        exact (h b (by simp)).2 (List.mem_of_mem_head? hx)

theorem posixNormalize_rel {p : Str} (hp : p ≠ []) (hhead : p.head? ≠ some '/')
    (hlast : p.getLast? ≠ some '/') :
    posixNormalize p ≠ [] ∧ (posixNormalize p).head? ≠ some '/' ∧
      hasDoubleSlash (posixNormalize p) = false := by
  have helems : ∀ e ∈ (normStack true (splitSlash p) []).reverse, e ≠ [] ∧ '/' ∉ e :=
    fun e he =>
      normStack_elems [] (by simp) (fun x hx => mem_splitSlash_no_slash hx) e
        (List.mem_reverse.mp he)
  simp only [posixNormalize]
  rw [if_neg hp, if_neg hhead]
  by_cases hbody : joinSlash (normStack true (splitSlash p) []).reverse = []
  · rw [if_pos hbody, if_neg hlast]
    exact ⟨by decide, by decide, by decide⟩
  · rw [if_neg hbody, if_neg hlast]
    refine ⟨hbody, ?_, joinSlash_no_double helems⟩
    cases hL : (normStack true (splitSlash p) []).reverse with
    | nil =>
      rw [hL] at hbody
      exact absurd rfl hbody
    | cons a t =>
      have ha : a ∈ (normStack true (splitSlash p) []).reverse := by
        rw [hL]
        exact List.mem_cons_self a t
      rw [joinSlash_head? (helems a ha).1]
      intro hx
      exact (helems a ha).2 (List.mem_of_mem_head? hx)

theorem posixNormalize_id {L : List Str} (hL : L ≠ [])
    (h : ∀ e ∈ L, e ≠ [] ∧ '/' ∉ e ∧ e ≠ ".".data ∧ e ≠ "..".data) :
    posixNormalize (joinSlash L) = joinSlash L := by
  have h1 : ∀ e ∈ L, e ≠ [] := fun e he => (h e he).1
  have h2 : ∀ e ∈ L, '/' ∉ e := fun e he => (h e he).2.1
  have hne : joinSlash L ≠ [] := joinSlash_ne_nil hL h1
  have hhead : (joinSlash L).head? ≠ some '/' := by
    cases L with
    | nil => exact absurd rfl hL
    | cons a t =>
      rw [joinSlash_head? (h1 a (List.mem_cons_self a t))]
      intro hx
      exact h2 a (List.mem_cons_self a t) (List.mem_of_mem_head? hx)
  have hlast := joinSlash_getLast_ne_slash h1 h2
  simp only [posixNormalize]
  rw [if_neg hne, if_neg hhead, splitSlash_joinSlash hL h2,
    normStack_good [] (fun e he => ⟨(h e he).1, (h e he).2.2.1, (h e he).2.2.2⟩),
    List.append_nil, List.reverse_reverse, if_neg hne, if_neg hlast]

theorem getLastD_mem {α : Type} {l : List α} (d : α) (h : l ≠ []) :
    l.getLastD d ∈ l := by
  induction l generalizing d with
  | nil => exact absurd rfl h
  | cons a t ih =>
    rw [List.getLastD_cons]
    cases t with
    | nil => simp [List.getLastD]
    | cons b u => exact List.mem_cons_of_mem a (ih a (by simp))

theorem basenameChars_no_slash (p : Str) : '/' ∉ basenameChars p := by
  unfold basenameChars
  exact mem_splitSlash_no_slash (getLastD_mem [] (splitSlash_ne_nil _))

theorem extnameChars_no_slash (p : Str) : '/' ∉ extnameChars p := by
  simp only [extnameChars]
  split
  · simp
  · split
    · simp
    · split
      · simp
      · intro hm
        exact basenameChars_no_slash p (List.drop_subset _ _ hm)

theorem sanitizeChar_ne (c : Char) : sanitizeChar c ≠ '/' ∧ sanitizeChar c ≠ '\\' := by
  unfold sanitizeChar
  split
  · exact ⟨by decide, by decide⟩
  · rename_i h
    push_neg at h
    exact ⟨h.1, h.2⟩

theorem fileBaseName_ne_nil (f : FileDesc) : fileBaseName f ≠ [] := by
  simp only [fileBaseName]
  split
  · decide
  · assumption

theorem uniqueNamePart_ne_nil (f : FileDesc) (now : Nat) :
    uniqueNamePart f now ≠ [] := by
  unfold uniqueNamePart
  cases h : (fileBaseName f).map sanitizeChar with
  | nil =>
    rcases List.map_eq_nil_iff.mp h with h2
    exact absurd h2 (fileBaseName_ne_nil f)
  | cons c t => simp

theorem uniqueNamePart_no_slash (f : FileDesc) (now : Nat) :
    '/' ∉ uniqueNamePart f now := by
  unfold uniqueNamePart
  intro hm
  rcases List.mem_append.mp hm with h | h
  · rcases List.mem_map.mp h with ⟨c, _, hc⟩
    exact (sanitizeChar_ne c).1 hc
  · rcases List.mem_cons.mp h with h | h
    · exact absurd h.symm (by decide)
    · rcases List.mem_append.mp h with h | h
      · exact absurd (natToChars_digits h) (by decide)
      · exact extnameChars_no_slash _ h

theorem uniqueNamePart_no_backslash (f : FileDesc) (now : Nat)
    (hx : '\\' ∉ extnameChars (deriveFileName f)) :
    '\\' ∉ uniqueNamePart f now := by
  unfold uniqueNamePart
  intro hm
  rcases List.mem_append.mp hm with h | h
  · rcases List.mem_map.mp h with ⟨c, _, hc⟩
    exact (sanitizeChar_ne c).2 hc
  · rcases List.mem_cons.mp h with h | h
    · exact absurd h.symm (by decide)
    · rcases List.mem_append.mp h with h | h
      · exact absurd (natToChars_digits h) (by decide)
      · exact hx h

theorem uniqueNamePart_getLast (f : FileDesc) (now : Nat) :
    (uniqueNamePart f now).getLast? ≠ some '/' := by
  intro hx
  exact uniqueNamePart_no_slash f now (List.mem_of_mem_getLast? hx)

theorem uniqueNamePart_not_dots (f : FileDesc) (now : Nat) :
    uniqueNamePart f now ≠ ".".data ∧ uniqueNamePart f now ≠ "..".data := by
  have hlen : 2 < (uniqueNamePart f now).length := by
    unfold uniqueNamePart
    rw [List.length_append, List.length_map, List.length_cons, List.length_append]
    have h1 : 1 ≤ (fileBaseName f).length :=
      List.length_pos.mpr (fileBaseName_ne_nil f)
    have h2 : 1 ≤ (natToChars now).length :=
      List.length_pos.mpr (natToChars_ne_nil now)
    omega
  constructor
  · intro hx
    rw [hx] at hlen
    exact absurd hlen (by decide)
  · intro hx
    rw [hx] at hlen
    exact absurd hlen (by decide)

theorem getFileTypeCategory_cases (f : FileDesc) :
    getFileTypeCategory f = "images".data ∨ getFileTypeCategory f = "media".data ∨
      getFileTypeCategory f = "files".data := by
  simp only [getFileTypeCategory]
  split
  · exact Or.inl rfl
  · split
    · exact Or.inr (Or.inl rfl)
    · exact Or.inr (Or.inr rfl)

theorem category_good (f : FileDesc) :
    getFileTypeCategory f ≠ [] ∧ '/' ∉ getFileTypeCategory f ∧
      '\\' ∉ getFileTypeCategory f ∧ getFileTypeCategory f ≠ ".".data ∧
      getFileTypeCategory f ≠ "..".data := by
  rcases getFileTypeCategory_cases f with h | h | h <;> rw [h] <;>
    exact ⟨by decide, by decide, by decide, by decide, by decide⟩

theorem backslashFix_id {s : Str} (h : '\\' ∉ s) :
    s.map (fun c => if c = '\\' then '/' else c) = s := by
  induction s with
  | nil => rfl
  | cons c t ih =>
    have hc : c ≠ '\\' := fun hx => h (hx ▸ List.mem_cons_self c t)
    rw [List.map_cons, if_neg hc, ih (fun hm => h (List.mem_cons_of_mem c hm))]

theorem isPrefixOf_append_self (a b : Str) : List.isPrefixOf a (a ++ b) = true := by
  induction a with
  | nil => cases b <;> rfl
  | cons c t ih => simp [List.isPrefixOf, ih]

theorem trimSlashes_of {s : Str} (hh : s.head? ≠ some '/')
    (hl : s.getLast? ≠ some '/') : trimSlashes s = s := by
  unfold trimSlashes stripLeadingSlashes
  rw [dropWhile_slash_of_head hh, dropTrailingSlashes_of_getLast hl]

theorem takeWhile_append_stop {a r : Str} (h : '/' ∉ a) :
    (a ++ '/' :: r).takeWhile (· ≠ '/') = a := by
  induction a with
  | nil => simp [List.takeWhile_cons]
  | cons c t ih =>
    have hc : c ≠ '/' := fun hx => h (hx ▸ List.mem_cons_self c t)
    rw [List.cons_append, List.takeWhile_cons, if_pos (by simpa using hc),
      ih (fun hm => h (List.mem_cons_of_mem c hm))]

theorem getLast?_cons_of_ne_nil {c : Char} {l : Str} (h : l ≠ []) :
    (c :: l).getLast? = l.getLast? := by
  rw [show (c :: l) = [c] ++ l from rfl, List.getLast?_append_of_ne_nil _ h]

theorem finalizeBasePath_head (bp : Str) :
    (finalizeBasePath bp).head? ≠ some '/' := by
  by_cases h : bp = []
  · simp [finalizeBasePath, h]
  · rw [finalizeBasePath, if_pos h]
    exact trimSlashes_head bp

theorem finalizeBasePath_getLast (bp : Str) :
    (finalizeBasePath bp).getLast? ≠ some '/' := by
  by_cases h : bp = []
  · simp [finalizeBasePath, h]
  · rw [finalizeBasePath, if_pos h]
    exact trimSlashes_getLast bp

theorem initAssetDomain_basePath_head (cfg : GConfig) :
    (initAssetDomain cfg).basePath.head? ≠ some '/' := by
  simp only [initAssetDomain]
  exact finalizeBasePath_head _

theorem initAssetDomain_basePath_getLast (cfg : GConfig) :
    (initAssetDomain cfg).basePath.getLast? ≠ some '/' := by
  simp only [initAssetDomain]
  exact finalizeBasePath_getLast _

theorem initDomainStep_assetDomain_getLast (cfg : GConfig) (hb0 : cfg.bucket ≠ [])
    (hbl : cfg.bucket.getLast? ≠ some '/') :
    (initDomainStep cfg).assetDomain.getLast? ≠ some '/' := by
  have hdef : (defaultDomain cfg).assetDomain.getLast? ≠ some '/' := by
    simp only [defaultDomain]
    rw [List.getLast?_append_of_ne_nil _ (by decide)]
    decide
  rcases hAD : cfg.assetDomain with _ | a
  · simp only [initDomainStep, hAD]
    exact hdef
  · simp only [initDomainStep, hAD]
    split
    · cases hu : urlParse a with
      | none =>
        simp only [hu]
        exact dropTrailingSlashes_getLast a
      | some u =>
        simp only [hu]
        rw [List.getLast?_append_of_ne_nil _ (by simp),
          getLast?_cons_of_ne_nil hb0]
        exact hbl
    · exact hdef

theorem saveTargetDir_ne_nil (st : ResolvedState) (f : FileDesc) (y m : Nat) :
    saveTargetDir st f y m ≠ [] := by
  unfold saveTargetDir
  split <;> simp

theorem saveTargetDir_head (st : ResolvedState) (f : FileDesc) (y m : Nat)
    (hbs : '\\' ∉ st.basePath) (hbh : st.basePath.head? ≠ some '/') :
    (saveTargetDir st f y m).head? ≠ some '/' := by
  unfold saveTargetDir
  rw [List.head?_map]
  split
  · rename_i h
    rw [List.head?_append_of_ne_nil _ h]
    cases hh : st.basePath.head? with
    | none => simp
    | some c =>
      have hc1 : c ≠ '/' := fun hx => hbh (hx ▸ hh)
      have hc2 : c ≠ '\\' := fun hx => hbs (hx ▸ List.mem_of_mem_head? hh)
      simp [hc1, hc2]
  · rcases getFileTypeCategory_cases f with h | h | h <;>
      rw [h, List.head?_append_of_ne_nil _ (by decide)] <;> decide

theorem saveStorageKey_props (st : ResolvedState) (f : FileDesc) (y m now : Nat)
    (hbs : '\\' ∉ st.basePath) (hbh : st.basePath.head? ≠ some '/') :
    saveStorageKey st f y m now ≠ [] ∧
      (saveStorageKey st f y m now).head? ≠ some '/' ∧
      hasDoubleSlash (saveStorageKey st f y m now) = false := by
  unfold saveStorageKey getUniqueFileName
  have htd := saveTargetDir_ne_nil st f y m
  have hun := uniqueNamePart_ne_nil f now
  rw [posixJoin2, if_neg (fun hx => htd hx.1), if_neg htd, if_neg hun]
  apply posixNormalize_rel
  · simp
  · rw [List.head?_append_of_ne_nil _ htd]
    exact saveTargetDir_head st f y m hbs hbh
  · rw [List.getLast?_append_of_ne_nil _ (by simp), getLast?_cons_of_ne_nil hun]
    exact uniqueNamePart_getLast f now

theorem savePublicUrl_eq {st : ResolvedState} {key sch tail : Str}
    (hsch : sch = "http".data ∨ sch = "https".data)
    (had : st.assetDomain = sch ++ "://".data ++ tail)
    (ht0 : tail ≠ []) (hth : tail.head? ≠ some '/')
    (htd : hasDoubleSlash tail = false) (htl : tail.getLast? ≠ some '/')
    (hk : hasDoubleSlash key = false) (hkh : key.head? ≠ some '/') :
    savePublicUrl st key = st.assetDomain ++ '/' :: key := by
  have hnoslash : '/' ∉ sch := by
    rcases hsch with rfl | rfl <;> decide
  have hnocolon : ':' ∉ sch := by
    rcases hsch with rfl | rfl <;> decide
  have hR : hasDoubleSlash (tail ++ '/' :: key) = false :=
    hasDouble_middle htd hk htl hkh
  have hlast : st.assetDomain.getLast? ≠ some '/' := by
    rw [had, List.getLast?_append_of_ne_nil _ ht0]
    exact htl
  have hsplit : (sch ++ "://".data ++ tail) ++ '/' :: key =
      sch ++ (':' :: '/' :: '/' :: (tail ++ '/' :: key)) := by
    rw [show ("://".data : Str) = ':' :: '/' :: '/' :: [] from rfl]
    simp
  unfold savePublicUrl
  rw [dropTrailingSlashes_of_getLast hlast, had, hsplit]
  unfold collapseSlashes
  rw [collapseGo_append_noslash hnoslash]
  have hcg : collapseGo false (':' :: '/' :: '/' :: (tail ++ '/' :: key)) =
      ':' :: '/' :: collapseGo true (tail ++ '/' :: key) := by
    simp [collapseGo]
  rw [hcg, collapseGo_true_of_head
      (by rw [List.head?_append_of_ne_nil _ ht0]; exact hth),
    collapseGo_no_double hR, replaceFirst_no_colon hnocolon]

/-! Claim theorems. -/

/-- C9: for every configuration value of `maxAge` that is absent or not a
number (including a numeric string), the resolved `maxAge` equals 2678400;
when `maxAge` is a number, that number is used unchanged. -/
theorem maxAge_resolution (v : JsMaxAge) :
    (∀ n : Int, v = .num n → resolveMaxAge v = n) ∧
    ((∀ n : Int, v ≠ .num n) → resolveMaxAge v = 2678400) := by
  constructor
  · rintro n rfl
    rfl
  · intro h
    cases v with
    | num n => exact absurd rfl (h n)
    | absent => rfl
    | str s => rfl

/-- Witness for `maxAge_resolution`: a concrete number is kept, the numeric
string `"123"` falls back to the default. -/
theorem maxAge_resolution_witness :
    resolveMaxAge (.num 60) = 60 ∧
      resolveMaxAge (.str "123".data) = 2678400 :=
  ⟨(maxAge_resolution (.num 60)).1 60 rfl,
   (maxAge_resolution (.str "123".data)).2 (fun _ h => JsMaxAge.noConfusion h)⟩

/-- C5: `urlToPath` never raises: a non-string or empty input returns the
empty string, and whenever the internal decode steps fail (the `try` body
throws), the result is the substring after the last `'/'` of the raw
input. -/
theorem urlToPath_total_fallbacks (st : ResolvedState) (bucket : Str)
    (url : Option Str) :
    ((url = none ∨ url = some []) → urlToPath st bucket url = []) ∧
    (∀ s, url = some s → s ≠ [] → urlToPathTry st bucket s = none →
      urlToPath st bucket url = lastSegment s) := by
  constructor
  · rintro (rfl | rfl)
    · rfl
    · rfl
  · rintro s rfl hs htry
    simp only [urlToPath, if_neg hs, htry]

/-- Witness for `urlToPath_total_fallbacks`: a non-string input yields `""`,
and the unparsable input `"zzz"` degrades to its own last path segment. -/
theorem urlToPath_total_fallbacks_witness :
    urlToPath ⟨"https://demo.storage.googleapis.com".data, []⟩ "demo".data none = [] ∧
    urlToPath ⟨"https://demo.storage.googleapis.com".data, []⟩ "demo".data
      (some "zzz".data) = "zzz".data := by
  constructor
  · exact (urlToPath_total_fallbacks ⟨"https://demo.storage.googleapis.com".data, []⟩
      "demo".data none).1 (Or.inl rfl)
  · have h := (urlToPath_total_fallbacks
      ⟨"https://demo.storage.googleapis.com".data, []⟩ "demo".data
      (some "zzz".data)).2 "zzz".data rfl (by decide) (by decide)
    rw [h]
    decide

/-- C6: `save` fails with the configuration error when the adapter was never
configured and with the invalid-input error when the file descriptor lacks a
path, issuing no upload call in either case; on success it issues exactly
one upload call and returns the public URL. -/
theorem save_error_contract (file : Option FileDesc) (cfg : GConfig)
    (f : FileDesc) (year month now : Nat) :
    save none file year month now = ([], .error .configurationError) ∧
    save (some cfg) none year month now = ([], .error .invalidInputError) ∧
    (f.path = [] →
      save (some cfg) (some f) year month now = ([], .error .invalidInputError)) ∧
    (f.path ≠ [] →
      save (some cfg) (some f) year month now =
        ([{ localPath := f.path,
            destination := saveStorageKey (initAssetDomain cfg) f year month now,
            cacheControl := "public, max-age=".data ++
              intToChars (resolveMaxAge cfg.maxAge),
            contentType := saveContentType f,
            isPublic := true }],
          .ok (savePublicUrl (initAssetDomain cfg)
            (saveStorageKey (initAssetDomain cfg) f year month now)))) := by
  refine ⟨rfl, rfl, ?_, ?_⟩
  · intro h
    simp [save, h]
  · intro h
    simp [save, h]

/-- Witness for `save_error_contract` at a concrete configuration and file. -/
theorem save_error_contract_witness :
    save (some ⟨"demo".data, none, false, [], [], .absent⟩)
        (some ⟨"photo.PNG".data, [], []⟩) 2024 3 5 =
      ([], .error .invalidInputError) ∧
    (save (some ⟨"demo".data, none, false, [], [], .absent⟩)
        (some ⟨"photo.PNG".data, "/tmp/x.png".data, []⟩) 2024 3 5).2 =
      .ok (savePublicUrl
        (initAssetDomain ⟨"demo".data, none, false, [], [], .absent⟩)
        (saveStorageKey (initAssetDomain ⟨"demo".data, none, false, [], [], .absent⟩)
          ⟨"photo.PNG".data, "/tmp/x.png".data, []⟩ 2024 3 5)) := by
  constructor
  · exact (save_error_contract none ⟨"demo".data, none, false, [], [], .absent⟩
      ⟨"photo.PNG".data, [], []⟩ 2024 3 5).2.2.1 rfl
  · rw [(save_error_contract none ⟨"demo".data, none, false, [], [], .absent⟩
      ⟨"photo.PNG".data, "/tmp/x.png".data, []⟩ 2024 3 5).2.2.2 (by decide)]

/-- C10: on every successful `save`, the upload metadata carries
`cacheControl = "public, max-age=<resolved maxAge>"` and a `contentType`
chosen by the three-step fallback: MIME lookup on the file path, else the
declared type, else `"application/octet-stream"`. -/
theorem save_upload_metadata (cfg : GConfig) (f : FileDesc)
    (year month now : Nat) (hp : f.path ≠ []) :
    (save (some cfg) (some f) year month now).1.length = 1 ∧
    (∀ call ∈ (save (some cfg) (some f) year month now).1,
      call.cacheControl =
        "public, max-age=".data ++ intToChars (resolveMaxAge cfg.maxAge) ∧
      (∀ mt, mimeLookup f.path = some mt → call.contentType = mt) ∧
      (mimeLookup f.path = none → f.type ≠ [] → call.contentType = f.type) ∧
      (mimeLookup f.path = none → f.type = [] →
        call.contentType = "application/octet-stream".data)) := by
  simp only [save, if_neg hp]
  refine ⟨rfl, ?_⟩
  intro call hcall
  rcases List.mem_singleton.mp hcall with rfl
  refine ⟨rfl, ?_, ?_, ?_⟩
  · intro mt hmt
    simp [saveContentType, hmt]
  · intro hmt ht
    simp [saveContentType, hmt, ht]
  · intro hmt ht
    simp [saveContentType, hmt, ht]

/-- Witness for `save_upload_metadata`: with a `.png` path the looked-up
type wins; with an extension-less path and no declared type the
octet-stream default applies. -/
theorem save_upload_metadata_witness :
    (∀ call ∈ (save (some ⟨"demo".data, none, false, [], [], .absent⟩)
        (some ⟨[], "/tmp/x.png".data, []⟩) 2024 3 5).1,
      call.contentType = "image/png".data) ∧
    (∀ call ∈ (save (some ⟨"demo".data, none, false, [], [], .absent⟩)
        (some ⟨[], "upload".data, []⟩) 2024 3 5).1,
      call.contentType = "application/octet-stream".data) := by
  constructor
  · intro call hcall
    exact ((save_upload_metadata ⟨"demo".data, none, false, [], [], .absent⟩
      ⟨[], "/tmp/x.png".data, []⟩ 2024 3 5 (by decide)).2 call hcall).2.1
      "image/png".data (by decide)
  · intro call hcall
    exact ((save_upload_metadata ⟨"demo".data, none, false, [], [], .absent⟩
      ⟨[], "upload".data, []⟩ 2024 3 5 (by decide)).2 call hcall).2.2.2
      (by decide) rfl

/-- C8: when the derived file name has no extension the unique name carries
no extension segment (nothing like `.jpg` is substituted), and when the base
name is empty the literal `"file"` is used. -/
theorem unique_name_fallbacks (f : FileDesc) (now : Nat) :
    (extnameChars (deriveFileName f) = [] →
      uniqueNamePart f now =
        (fileBaseName f).map sanitizeChar ++ '-' :: natToChars now) ∧
    (basenameExtChars (deriveFileName f) (extnameChars (deriveFileName f)) = [] →
      fileBaseName f = "file".data) := by
  constructor
  · intro h
    unfold uniqueNamePart
    rw [h, List.append_nil]
  · intro h
    simp only [fileBaseName]
    rw [if_pos h]

/-- Witness for `unique_name_fallbacks`: `"README"` has no extension and
gets none; the name `"/"` has an empty base name and becomes `"file"`. -/
theorem unique_name_fallbacks_witness :
    uniqueNamePart ⟨"README".data, [], []⟩ 5 =
      (fileBaseName ⟨"README".data, [], []⟩).map sanitizeChar ++
        '-' :: natToChars 5 ∧
    fileBaseName ⟨"/".data, [], []⟩ = "file".data :=
  ⟨(unique_name_fallbacks ⟨"README".data, [], []⟩ 5).1 (by decide),
   (unique_name_fallbacks ⟨"/".data, [], []⟩ 5).2 (by decide)⟩

/-- C3 counterexample: the file descriptor with name `"movie.mp4"` and path
`"x.png"` has its derived extension in the media set, yet is classified
`"images"` (the MIME lookup on the path wins), refuting the claim that a
media-set extension always yields `"media"`. -/
theorem classifier_counterexample :
    toLowerStr (extnameChars (deriveFileName ⟨"movie.mp4".data, "x.png".data, []⟩)) ∈
        mediaExtensions ∧
      getFileTypeCategory ⟨"movie.mp4".data, "x.png".data, []⟩ ≠ "media".data := by
  decide

/-- C4 counterexample: a file name whose extension contains a backslash
(`"a.b\c"`) produces a storage key containing a backslash, because only the
base name, not the extension, is sanitized. -/
theorem key_backslash_counterexample :
    '\\' ∈ saveStorageKey ⟨"https://x".data, []⟩
      ⟨"a.b\\c".data, "p".data, []⟩ 2024 3 5 := by
  decide

/-- C7 counterexample: with the empty bucket name and a custom domain the
resolved asset domain ends in `'/'`, refuting the unconditional trailing
slash invariant. -/
theorem domain_invariant_counterexample :
    (initAssetDomain ⟨[], some "https://cdn.example.com".data, false, [], [],
        .absent⟩).assetDomain.getLast? = some '/' := by
  decide

/-- C2 counterexample: with `uploadFolderPath` configured, a custom domain
of the claimed shape does not yield the path parsed from the domain — the
override wins. -/
theorem custom_domain_counterexample :
    (initAssetDomain ⟨"demo".data,
        some "https://cdn.example.com/demo/uploads".data,
        false, [], "override".data, .absent⟩).basePath ≠ "uploads".data := by
  decide

/-- C1 counterexample: with the bucket name `"a//b"` (whose doubled slash
the URL collapse destroys), decoding the URL produced for a freshly built
key does not recover that key. -/
theorem round_trip_counterexample :
    urlToPath (initAssetDomain ⟨"a//b".data, none, false, [], [], .absent⟩)
        "a//b".data
        (some (savePublicUrl
          (initAssetDomain ⟨"a//b".data, none, false, [], [], .absent⟩)
          (saveStorageKey
            (initAssetDomain ⟨"a//b".data, none, false, [], [], .absent⟩)
            ⟨"f.txt".data, "f.txt".data, []⟩ 2024 3 5))) ≠
      saveStorageKey (initAssetDomain ⟨"a//b".data, none, false, [], [], .absent⟩)
        ⟨"f.txt".data, "f.txt".data, []⟩ 2024 3 5 := by
  decide

/-- C7 (amended): for every configuration whose bucket name is non-empty and
does not end in `'/'`, the resolved base path has no leading and no trailing
slash (the empty string is allowed) and the resolved asset domain has no
trailing slash. -/
theorem domain_invariants (cfg : GConfig) (hb0 : cfg.bucket ≠ [])
    (hbl : cfg.bucket.getLast? ≠ some '/') :
    (initAssetDomain cfg).basePath.head? ≠ some '/' ∧
    (initAssetDomain cfg).basePath.getLast? ≠ some '/' ∧
    (initAssetDomain cfg).assetDomain.getLast? ≠ some '/' := by
  refine ⟨initAssetDomain_basePath_head cfg, initAssetDomain_basePath_getLast cfg, ?_⟩
  simp only [initAssetDomain]
  exact initDomainStep_assetDomain_getLast cfg hb0 hbl

/-- Witness for `domain_invariants` at a custom-domain configuration. -/
theorem domain_invariants_witness :
    (initAssetDomain ⟨"demo".data, some "https://cdn.example.com/demo/uploads".data,
        false, [], [], .absent⟩).basePath.head? ≠ some '/' ∧
    (initAssetDomain ⟨"demo".data, some "https://cdn.example.com/demo/uploads".data,
        false, [], [], .absent⟩).basePath.getLast? ≠ some '/' ∧
    (initAssetDomain ⟨"demo".data, some "https://cdn.example.com/demo/uploads".data,
        false, [], [], .absent⟩).assetDomain.getLast? ≠ some '/' :=
  domain_invariants _ (by decide) (by decide)

theorem media_not_image : ∀ e ∈ mediaExtensions, e ∉ imageExtensions := by
  decide

/-- C3 (amended): the classifier is total with values in
`{"images", "media", "files"}`; an image-set extension always yields
`"images"`; a media-set extension yields `"media"` unless the derived MIME
type starts with `"image/"` (then `"images"` wins); a derived MIME type
alone routes `image/` to `"images"` and `video/` or `audio/` to `"media"`;
and `"files"` is returned exactly when no extension or MIME-prefix test
matches. -/
theorem classifier_total (f : FileDesc) :
    (getFileTypeCategory f = "images".data ∨ getFileTypeCategory f = "media".data ∨
      getFileTypeCategory f = "files".data) ∧
    (toLowerStr (extnameChars (deriveFileName f)) ∈ imageExtensions →
      getFileTypeCategory f = "images".data) ∧
    (List.isPrefixOf "image/".data (deriveMimeType f) = true →
      getFileTypeCategory f = "images".data) ∧
    (toLowerStr (extnameChars (deriveFileName f)) ∈ mediaExtensions →
      List.isPrefixOf "image/".data (deriveMimeType f) = false →
      getFileTypeCategory f = "media".data) ∧
    ((List.isPrefixOf "video/".data (deriveMimeType f) = true ∨
        List.isPrefixOf "audio/".data (deriveMimeType f) = true) →
      toLowerStr (extnameChars (deriveFileName f)) ∉ imageExtensions →
      List.isPrefixOf "image/".data (deriveMimeType f) = false →
      getFileTypeCategory f = "media".data) ∧
    (toLowerStr (extnameChars (deriveFileName f)) ∉ imageExtensions →
      toLowerStr (extnameChars (deriveFileName f)) ∉ mediaExtensions →
      List.isPrefixOf "image/".data (deriveMimeType f) = false →
      List.isPrefixOf "video/".data (deriveMimeType f) = false →
      List.isPrefixOf "audio/".data (deriveMimeType f) = false →
      getFileTypeCategory f = "files".data) := by
  refine ⟨getFileTypeCategory_cases f, ?_, ?_, ?_, ?_, ?_⟩
  · intro h
    simp only [getFileTypeCategory]
    rw [if_pos (Or.inl h)]
  · intro h
    simp only [getFileTypeCategory]
    rw [if_pos (Or.inr h)]
  · intro h1 h2
    simp only [getFileTypeCategory]
    rw [if_neg ?hneg, if_pos (Or.inl h1)]
    case hneg =>
      rintro (hx | hx)
      · exact media_not_image _ h1 hx
      · exact absurd hx (by simp [h2])
  · intro h1 h2 h3
    simp only [getFileTypeCategory]
    rw [if_neg ?hneg2]
    case hneg2 =>
      rintro (hx | hx)
      · exact h2 hx
      · exact absurd hx (by simp [h3])
    rcases h1 with hv | ha
    · rw [if_pos (Or.inr (Or.inl hv))]
    · rw [if_pos (Or.inr (Or.inr ha))]
  · intro h1 h2 h3 h4 h5
    simp only [getFileTypeCategory]
    rw [if_neg ?hneg3, if_neg ?hneg4]
    case hneg3 =>
      rintro (hx | hx)
      · exact h1 hx
      · exact absurd hx (by simp [h3])
    case hneg4 =>
      rintro (hx | hx | hx)
      · exact h2 hx
      · exact absurd hx (by simp [h4])
      · exact absurd hx (by simp [h5])

/-- Witness for `classifier_total`: one concrete input per routing clause. -/
theorem classifier_total_witness :
    getFileTypeCategory ⟨"photo.PNG".data, [], []⟩ = "images".data ∧
    getFileTypeCategory ⟨"movie.mp4".data, [], []⟩ = "media".data ∧
    getFileTypeCategory ⟨[], [], "image/custom".data⟩ = "images".data ∧
    getFileTypeCategory ⟨[], [], "audio/custom".data⟩ = "media".data ∧
    getFileTypeCategory ⟨"notes.txt".data, [], []⟩ = "files".data := by
  refine ⟨?_, ?_, ?_, ?_, ?_⟩
  · exact (classifier_total ⟨"photo.PNG".data, [], []⟩).2.1 (by decide)
  · exact (classifier_total ⟨"movie.mp4".data, [], []⟩).2.2.2.1 (by decide)
      (by decide)
  · exact (classifier_total ⟨[], [], "image/custom".data⟩).2.2.1 (by decide)
  · exact (classifier_total ⟨[], [], "audio/custom".data⟩).2.2.2.2.1
      (Or.inr (by decide)) (by decide) (by decide)
  · exact (classifier_total ⟨"notes.txt".data, [], []⟩).2.2.2.2.2 (by decide)
      (by decide) (by decide) (by decide) (by decide)

theorem getTargetDir_eq (year month : Nat) :
    getTargetDir year month = joinSlash [natToChars year, pad2 month] := by
  simp [getTargetDir, joinSlash]

/-- C4 (amended): for every file descriptor whose derived extension contains
no backslash and every resolved base path given as slash-joined plain
segments (non-empty, containing no slash or backslash, not `"."` or
`".."`), the storage key is exactly
`[basePath/]<category>/<YYYY>/<MM>/<sanitizedBaseName>-<epochMillis><ext>`
joined with single forward slashes, contains no backslash, and contains no
doubled slash. -/
theorem key_shape (st : ResolvedState) (f : FileDesc) (year month now : Nat)
    (segs : List Str) (hbp : st.basePath = joinSlash segs)
    (hsegs : ∀ s ∈ segs, s ≠ [] ∧ '/' ∉ s ∧ '\\' ∉ s ∧ s ≠ ".".data ∧ s ≠ "..".data)
    (hext : '\\' ∉ extnameChars (deriveFileName f)) :
    saveStorageKey st f year month now =
      joinSlash (segs ++ [getFileTypeCategory f, natToChars year, pad2 month,
        uniqueNamePart f now]) ∧
    '\\' ∉ saveStorageKey st f year month now ∧
    hasDoubleSlash (saveStorageKey st f year month now) = false := by
  have hY := digitStr_good (natToChars_ne_nil year) (fun c hc => natToChars_digits hc)
  have hM := digitStr_good (pad2_ne_nil month) (fun c hc => pad2_digits hc)
  have hcat := category_good f
  have hU0 := uniqueNamePart_ne_nil f now
  have hU1 := uniqueNamePart_no_slash f now
  have hU2 := uniqueNamePart_no_backslash f now hext
  have hU3 := uniqueNamePart_not_dots f now
  have hGood : ∀ e ∈ segs ++ [getFileTypeCategory f, natToChars year, pad2 month,
      uniqueNamePart f now], e ≠ [] ∧ '/' ∉ e ∧ e ≠ ".".data ∧ e ≠ "..".data := by
    intro e he
    rcases List.mem_append.mp he with h | h
    · exact ⟨(hsegs e h).1, (hsegs e h).2.1, (hsegs e h).2.2.2.1, (hsegs e h).2.2.2.2⟩
    · rcases List.mem_cons.mp h with rfl | h
      · exact ⟨hcat.1, hcat.2.1, hcat.2.2.2.1, hcat.2.2.2.2⟩
      · rcases List.mem_cons.mp h with rfl | h
        · exact ⟨natToChars_ne_nil year, hY.1, hY.2.2.1, hY.2.2.2⟩
        · rcases List.mem_cons.mp h with rfl | h
          · exact ⟨pad2_ne_nil month, hM.1, hM.2.2.1, hM.2.2.2⟩
          · rcases List.mem_cons.mp h with rfl | h
            · exact ⟨hU0, hU1, hU3.1, hU3.2⟩
            · exact absurd h (List.not_mem_nil e)
  have hNoBS : ∀ e ∈ segs ++ [getFileTypeCategory f, natToChars year, pad2 month,
      uniqueNamePart f now], '\\' ∉ e := by
    intro e he
    rcases List.mem_append.mp he with h | h
    · exact (hsegs e h).2.2.1
    · rcases List.mem_cons.mp h with rfl | h
      · exact hcat.2.2.1
      · rcases List.mem_cons.mp h with rfl | h
        · exact hY.2.1
        · rcases List.mem_cons.mp h with rfl | h
          · exact hM.2.1
          · rcases List.mem_cons.mp h with rfl | h
            · exact hU2
            · exact absurd h (List.not_mem_nil e)
  have htd : saveTargetDir st f year month =
      joinSlash (segs ++ [getFileTypeCategory f, natToChars year, pad2 month]) := by
    have hGood3 : ∀ e ∈ ([getFileTypeCategory f, natToChars year, pad2 month] :
        List Str), '\\' ∉ e := by
      intro e he
      rcases List.mem_cons.mp he with rfl | he
      · exact hcat.2.2.1
      · rcases List.mem_cons.mp he with rfl | he
        · exact hY.2.1
        · rcases List.mem_cons.mp he with rfl | he
          · exact hM.2.1
          · exact absurd he (List.not_mem_nil e)
    have hj3 : getFileTypeCategory f ++ '/' :: getTargetDir year month =
        joinSlash [getFileTypeCategory f, natToChars year, pad2 month] := by
      simp [joinSlash, getTargetDir]
    by_cases h0 : segs = []
    · subst h0
      have hbp0 : st.basePath = [] := hbp
      unfold saveTargetDir
      rw [if_neg (by simp [hbp0]), hj3, List.nil_append]
      apply backslashFix_id
      intro hm
      rcases mem_joinSlash hm with h | ⟨e, he, hce⟩
      · exact absurd h (by decide)
      · exact hGood3 e he hce
    · have hbpn : st.basePath ≠ [] := by
        rw [hbp]
        exact joinSlash_ne_nil h0 (fun e he => (hsegs e he).1)
      unfold saveTargetDir
      rw [if_pos hbpn, hbp, hj3, ← joinSlash_append h0 (by simp)]
      apply backslashFix_id
      intro hm
      rcases mem_joinSlash hm with h | ⟨e, he, hce⟩
      · exact absurd h (by decide)
      · rcases List.mem_append.mp he with h | h
        · exact (hsegs e h).2.2.1 hce
        · exact hGood3 e h hce
  have hkey : saveStorageKey st f year month now =
      joinSlash (segs ++ [getFileTypeCategory f, natToChars year, pad2 month,
        uniqueNamePart f now]) := by
    unfold saveStorageKey getUniqueFileName
    rw [posixJoin2, if_neg (fun hx => saveTargetDir_ne_nil st f year month hx.1),
      if_neg (saveTargetDir_ne_nil st f year month), if_neg hU0, htd]
    have hassoc : (segs ++ [getFileTypeCategory f, natToChars year, pad2 month]) ++
        [uniqueNamePart f now] = segs ++ [getFileTypeCategory f, natToChars year,
          pad2 month, uniqueNamePart f now] := by
      simp
    have hsplit := @joinSlash_append
      (segs ++ [getFileTypeCategory f, natToChars year, pad2 month])
      [uniqueNamePart f now] (by simp) (by simp)
    rw [hassoc, show joinSlash [uniqueNamePart f now] = uniqueNamePart f now from rfl]
      at hsplit
    rw [← hsplit]
    exact posixNormalize_id (by simp) hGood
  refine ⟨hkey, ?_, ?_⟩
  · rw [hkey]
    intro hm
    rcases mem_joinSlash hm with h | ⟨e, he, hce⟩
    · exact absurd h (by decide)
    · exact hNoBS e he hce
  · rw [hkey]
    exact joinSlash_no_double (fun e he => ⟨(hGood e he).1, (hGood e he).2.1⟩)

/-- Witness for `key_shape` with base path `"blog"` and file `"photo.PNG"`. -/
theorem key_shape_witness :
    saveStorageKey ⟨"https://demo.storage.googleapis.com".data, "blog".data⟩
        ⟨"photo.PNG".data, [], []⟩ 2024 3 5 =
      joinSlash (["blog".data] ++
        [getFileTypeCategory ⟨"photo.PNG".data, [], []⟩, natToChars 2024, pad2 3,
          uniqueNamePart ⟨"photo.PNG".data, [], []⟩ 5]) ∧
    '\\' ∉ saveStorageKey ⟨"https://demo.storage.googleapis.com".data, "blog".data⟩
        ⟨"photo.PNG".data, [], []⟩ 2024 3 5 ∧
    hasDoubleSlash (saveStorageKey
        ⟨"https://demo.storage.googleapis.com".data, "blog".data⟩
        ⟨"photo.PNG".data, [], []⟩ 2024 3 5) = false :=
  key_shape ⟨"https://demo.storage.googleapis.com".data, "blog".data⟩
    ⟨"photo.PNG".data, [], []⟩ 2024 3 5 ["blog".data] (by decide) (by decide)
    (by decide)

/-- C1 (amended): for every instance whose resolved asset domain has the
shape `sch://tail` with `sch` either `http` or `https` and `tail` non-empty,
not starting or ending with `'/'` and free of doubled slashes, and whose
resolved base path contains no backslash, decoding the public URL produced
by the forward encode path recovers exactly the storage key the key builder
produced. -/
theorem round_trip (cfg : GConfig) (f : FileDesc) (year month now : Nat)
    (sch tail : Str)
    (hsch : sch = "http".data ∨ sch = "https".data)
    (had : (initAssetDomain cfg).assetDomain = sch ++ "://".data ++ tail)
    (ht0 : tail ≠ []) (hth : tail.head? ≠ some '/')
    (htd : hasDoubleSlash tail = false) (htl : tail.getLast? ≠ some '/')
    (hbs : '\\' ∉ (initAssetDomain cfg).basePath) :
    urlToPath (initAssetDomain cfg) cfg.bucket
      (some (savePublicUrl (initAssetDomain cfg)
        (saveStorageKey (initAssetDomain cfg) f year month now))) =
      saveStorageKey (initAssetDomain cfg) f year month now := by
  obtain ⟨hk0, hkh, hkd⟩ := saveStorageKey_props (initAssetDomain cfg) f year month
    now hbs (initAssetDomain_basePath_head cfg)
  have hurl := savePublicUrl_eq hsch had ht0 hth htd htl hkd hkh
  rw [hurl]
  have hne : (initAssetDomain cfg).assetDomain ++
      '/' :: saveStorageKey (initAssetDomain cfg) f year month now ≠ [] := by
    simp
  have htry : urlToPathTry (initAssetDomain cfg) cfg.bucket
      ((initAssetDomain cfg).assetDomain ++
        '/' :: saveStorageKey (initAssetDomain cfg) f year month now) =
      some (saveStorageKey (initAssetDomain cfg) f year month now) := by
    simp only [urlToPathTry]
    rw [if_pos (isPrefixOf_append_self _ _), List.drop_left]
    have hstrip : stripLeadingSlashes
        ('/' :: saveStorageKey (initAssetDomain cfg) f year month now) =
        saveStorageKey (initAssetDomain cfg) f year month now := by
      unfold stripLeadingSlashes
      rw [List.dropWhile_cons, if_pos (by decide)]
      exact dropWhile_slash_of_head hkh
    simp only [Option.map_some']
    rw [hstrip, show collapseSlashes (saveStorageKey (initAssetDomain cfg) f year
      month now) = saveStorageKey (initAssetDomain cfg) f year month now from
      collapseGo_no_double hkd]
  simp only [urlToPath, if_neg hne, htry]

/-- Witness for `round_trip` at the default-domain configuration with bucket
`"demo"`. -/
theorem round_trip_witness :
    urlToPath (initAssetDomain ⟨"demo".data, none, false, [], [], .absent⟩)
        "demo".data
        (some (savePublicUrl
          (initAssetDomain ⟨"demo".data, none, false, [], [], .absent⟩)
          (saveStorageKey
            (initAssetDomain ⟨"demo".data, none, false, [], [], .absent⟩)
            ⟨"photo.PNG".data, "/tmp/x.png".data, []⟩ 2024 3 5))) =
      saveStorageKey (initAssetDomain ⟨"demo".data, none, false, [], [], .absent⟩)
        ⟨"photo.PNG".data, "/tmp/x.png".data, []⟩ 2024 3 5 :=
  round_trip ⟨"demo".data, none, false, [], [], .absent⟩
    ⟨"photo.PNG".data, "/tmp/x.png".data, []⟩ 2024 3 5
    "https".data "demo.storage.googleapis.com".data
    (Or.inr rfl) (by decide) (by decide) (by decide) (by decide) (by decide)
    (by decide)

theorem splitSlash_cons_slash (r : Str) : splitSlash ('/' :: r) = [] :: splitSlash r := by
  simp [splitSlash]

theorem urlParse_simple {host p : Str} (h0 : host ≠ [])
    (hh : host.all hostChar = true) (hp : (('/' :: p) : Str).all pathChar = true) :
    urlParse ("https://".data ++ host ++ '/' :: p) =
      some ⟨"https:".data, host, '/' :: p⟩ := by
  have hns : '/' ∉ host := by
    intro hm
    exact absurd (List.all_eq_true.mp hh '/' hm) (by decide)
  unfold urlParse
  rw [List.append_assoc,
    if_pos (by
      rw [List.take_left' (show ("https://".data : Str).length = 8 from rfl)]
      decide),
    List.drop_left' (show ("https://".data : Str).length = 8 from rfl)]
  simp only [urlParseAux]
  rw [takeWhile_append_stop hns, List.drop_left, if_neg ?hneg, if_neg (by simp)]
  case hneg =>
    rintro (hx | hx | hx)
    · exact h0 hx
    · exact hx hh
    · exact hx hp

theorem finalizeBasePath_join {L : List Str} (h : ∀ e ∈ L, e ≠ [] ∧ '/' ∉ e) :
    finalizeBasePath (joinSlash L) = joinSlash L := by
  cases L with
  | nil => simp [finalizeBasePath, joinSlash]
  | cons a t =>
    rw [finalizeBasePath,
      if_pos (joinSlash_ne_nil (by simp) (fun e he => (h e he).1))]
    apply trimSlashes_of
    · rw [joinSlash_head? (h a (List.mem_cons_self a t)).1]
      intro hx
      exact (h a (List.mem_cons_self a t)).2 (List.mem_of_mem_head? hx)
    · exact joinSlash_getLast_ne_slash (fun e he => (h e he).1)
        (fun e he => (h e he).2)

/-- C2 (amended): for every configuration without `uploadFolderPath` whose
`assetDomain` is an absolute `https` URL over a plain host with plain path
segments, the resolved asset domain is `https://host/<bucket>` (the bucket
name is always reinstated), and the base path drops the first parsed
segment exactly when it equals the bucket name and joins the remaining
segments. -/
theorem custom_domain_resolution (cfg : GConfig) (host p : Str) (segs : List Str)
    (h0 : host ≠ []) (hh : host.all hostChar = true)
    (had : cfg.assetDomain = some ("https://".data ++ host ++ '/' :: p))
    (hjp : p = joinSlash segs) (hsegs0 : segs ≠ [])
    (hsegsE : ∀ s ∈ segs, s ≠ [] ∧ '/' ∉ s ∧ s.all pathChar = true)
    (hupl : cfg.uploadFolderPath = []) :
    (initAssetDomain cfg).assetDomain =
      "https://".data ++ host ++ '/' :: cfg.bucket ∧
    (segs.head? = some cfg.bucket →
      (initAssetDomain cfg).basePath = joinSlash segs.tail) ∧
    (segs.head? ≠ some cfg.bucket →
      (initAssetDomain cfg).basePath = joinSlash segs) := by
  have hpc : (('/' :: p) : Str).all pathChar = true := by
    rw [List.all_eq_true]
    intro c hc
    rcases List.mem_cons.mp hc with rfl | hc
    · decide
    · rw [hjp] at hc
      rcases mem_joinSlash hc with rfl | ⟨e, he, hce⟩
      · decide
      · exact List.all_eq_true.mp (hsegsE e he).2.2 c hce
  have hparse := urlParse_simple h0 hh hpc
  have hfilter : (splitSlash ('/' :: p)).filter (fun s => s ≠ []) = segs := by
    rw [splitSlash_cons_slash, hjp,
      splitSlash_joinSlash hsegs0 (fun e he => (hsegsE e he).2.1)]
    rw [List.filter_cons]
    simp only [decide_not]
    rw [if_neg (by simp)]
    exact List.filter_eq_self.mpr (fun a ha => by
      simpa using (hsegsE a ha).1)
  have hstep : initDomainStep cfg =
      ⟨"https:".data ++ "//".data ++ host ++ '/' :: cfg.bucket,
        joinSlash (if segs.head? = some cfg.bucket then segs.tail else segs)⟩ := by
    have hregex : httpRegexTest ("https://".data ++ host ++ '/' :: p) = true := by
      simp only [httpRegexTest, decide_eq_true_eq]
      right
      rw [List.append_assoc,
        List.take_left' (show ("https://".data : Str).length = 8 from rfl)]
      decide
    simp only [initDomainStep, had]
    rw [if_pos ⟨by simp, hregex⟩]
    simp only [hparse, hfilter]
  have hAD : (initDomainStep cfg).assetDomain =
      "https:".data ++ "//".data ++ host ++ '/' :: cfg.bucket := by rw [hstep]
  have hBP : (initDomainStep cfg).basePath =
      joinSlash (if segs.head? = some cfg.bucket then segs.tail else segs) := by
    rw [hstep]
  have hBPfin : (initAssetDomain cfg).basePath =
      finalizeBasePath (joinSlash
        (if segs.head? = some cfg.bucket then segs.tail else segs)) := by
    simp only [initAssetDomain]
    rw [hupl, if_neg (by simp), hBP]
  refine ⟨?_, ?_, ?_⟩
  · simp only [initAssetDomain]
    rw [hAD, show ("https:".data : Str) ++ "//".data = "https://".data from rfl]
  · intro hhead
    rw [hBPfin, if_pos hhead]
    apply finalizeBasePath_join
    intro e he
    have : e ∈ segs := by
      cases segs with
      | nil => exact absurd he (List.not_mem_nil e)
      | cons a t => exact List.mem_cons_of_mem a he
    exact ⟨(hsegsE e this).1, (hsegsE e this).2.1⟩
  · intro hhead
    rw [hBPfin, if_neg hhead]
    exact finalizeBasePath_join (fun e he => ⟨(hsegsE e he).1, (hsegsE e he).2.1⟩)

/-- Witness for `custom_domain_resolution` at the spec's concrete scenario:
`assetDomain = "https://cdn.example.com/demo/uploads"`, bucket `"demo"`. -/
theorem custom_domain_resolution_witness :
    (initAssetDomain ⟨"demo".data,
        some "https://cdn.example.com/demo/uploads".data, false, [], [],
        .absent⟩).assetDomain =
      "https://".data ++ "cdn.example.com".data ++ '/' :: "demo".data ∧
    (initAssetDomain ⟨"demo".data,
        some "https://cdn.example.com/demo/uploads".data, false, [], [],
        .absent⟩).basePath = joinSlash ["demo".data, "uploads".data].tail := by
  have h := custom_domain_resolution
    ⟨"demo".data, some "https://cdn.example.com/demo/uploads".data, false, [], [],
      .absent⟩
    "cdn.example.com".data "demo/uploads".data ["demo".data, "uploads".data]
    (by decide) (by decide) (by decide) (by decide) (by decide)
    (by decide) rfl
  exact ⟨h.1, h.2.1 (by decide)⟩
